import Mathlib

/-
Verification development for the core of the mdict-cpp MDX/MDD dictionary
reader.  Bytes are modelled as natural numbers (with values < 256 where it
matters) and byte strings as `List Nat`; key comparison uses the
lexicographic linear order on `List Nat`.  The repository ships only the
header `src/include/mdict.h` (class declarations, inline classes and the
documented file layout); where a member function's body is absent, the
corresponding definition below is modelled from the specification and says
so in its doc comment.
-/

/-- record models the `record` class of mdict.h (lines 206-233).  The C++
field and parameter types are `unsigned int` (32-bit) for `comp_size`,
`uncomp_size` and `comp_type`, and `unsigned long` (64-bit) for the
index/offset fields; `encoding` is a plain `int` and `record_encrypted` a
`bool`. -/
structure record where
  key_text : List Nat
  key_idx : Nat
  encoding : Int
  record_start_offset : Nat
  comp_size : Nat
  uncomp_size : Nat
  comp_type : Nat
  record_encrypted : Bool
  relative_record_start : Nat
  relative_record_end : Nat
deriving Repr, DecidableEq

/-- record.make models a call of the `record` constructor with the
mathematical values the caller holds: passing each argument to a parameter
of the declared C++ type reduces it modulo that type's width (2^32 for the
`unsigned int` parameters `csize`, `uncsize`, `comp_type`; 2^64 for the
`unsigned long` parameters), after which the constructor body stores each
parameter unchanged into the field of the same name. -/
def record.make (ktext : List Nat) (kidx : Nat) (enc : Int) (r_start_ofset : Nat)
    (csize : Nat) (uncsize : Nat) (ctype : Nat) (renc : Bool)
    (rela_stat : Nat) (rela_end : Nat) : record :=
  { key_text := ktext
    key_idx := kidx % 2 ^ 64
    encoding := enc
    record_start_offset := r_start_ofset % 2 ^ 64
    comp_size := csize % 2 ^ 32
    uncomp_size := uncsize % 2 ^ 32
    comp_type := ctype % 2 ^ 32
    record_encrypted := renc
    relative_record_start := rela_stat % 2 ^ 64
    relative_record_end := rela_end % 2 ^ 64 }

/-- MdictFields models the data members of class `Mdict` that carry
in-class member initializers in mdict.h (lines 468-503), with the C++
`float version = 1.0` rendered exactly as the rational 1. -/
structure MdictFields where
  header_bytes_size : Nat
  key_block_start_offset : Nat
  key_block_info_start_offset : Nat
  key_block_compressed_start_offset : Nat
  key_block_num : Nat
  entries_num : Nat
  key_block_info_decompress_size : Nat
  key_block_info_size : Nat
  key_block_size : Nat
  key_block_body_start : Nat
  encrypt : Int
  version : ℚ
  number_width : Nat
  number_format : Int
  encoding : Int

/-- Mdict.defaultFields is the field state of a freshly constructed
`Mdict` object, read off the in-class initializers of mdict.h:
all sizes and offsets 0, `encrypt = 0`, `version = 1.0`,
`number_width = 8`, `number_format = 0`, `encoding = ENCODING_UTF8 = 0`. -/
def Mdict.defaultFields : MdictFields :=
  { header_bytes_size := 0
    key_block_start_offset := 0
    key_block_info_start_offset := 0
    key_block_compressed_start_offset := 0
    key_block_num := 0
    entries_num := 0
    key_block_info_decompress_size := 0
    key_block_info_size := 0
    key_block_size := 0
    key_block_body_start := 0
    encrypt := 0
    version := 1
    number_width := 8
    number_format := 0
    encoding := 0 }

/-- spec_number_width is the width rule of the specification (§4.2):
`number_width = 8` for wire version at least 2.0 and `4` otherwise. -/
def spec_number_width (version : ℚ) : Nat :=
  if 2 ≤ version then 8 else 4

/-- C9: for every newly constructed Mdict handle, before init()/read_header()
has run, the version field is 1.0 while number_width is 8, so the default
active width is the 64-bit width of versions at least 2.0 even though the
default version is below 2.0; hence the pair violates the spec's width rule
until the header is parsed. -/
theorem mdict_default_width_mismatch :
    Mdict.defaultFields.version = 1 ∧
    Mdict.defaultFields.number_width = 8 ∧
    Mdict.defaultFields.version < 2 ∧
    Mdict.defaultFields.number_width ≠ spec_number_width Mdict.defaultFields.version := by
  refine ⟨rfl, rfl, by norm_num [Mdict.defaultFields], ?_⟩
  have h2 : ¬ (2 : ℚ) ≤ Mdict.defaultFields.version := by norm_num [Mdict.defaultFields]
  simp [spec_number_width, h2, Mdict.defaultFields]

/-- C10: the stored comp_size and uncomp_size of a constructed record equal
the caller's csize and uncsize reduced modulo 2^32 (the fields are 32-bit
`unsigned int` while container block sizes may be 64-bit), and every other
constructor argument that fits its declared parameter type is stored
unchanged. -/
theorem record_make_truncates (ktext : List Nat) (kidx : Nat) (enc : Int)
    (r_start_ofset : Nat) (csize : Nat) (uncsize : Nat) (ctype : Nat)
    (renc : Bool) (rela_stat : Nat) (rela_end : Nat)
    (hk : kidx < 2 ^ 64) (hr : r_start_ofset < 2 ^ 64) (hc : ctype < 2 ^ 32)
    (hs : rela_stat < 2 ^ 64) (he : rela_end < 2 ^ 64) :
    ∀ r, r = record.make ktext kidx enc r_start_ofset csize uncsize ctype renc
        rela_stat rela_end →
    r.comp_size = csize % 2 ^ 32 ∧ r.uncomp_size = uncsize % 2 ^ 32 ∧
    r.key_text = ktext ∧ r.key_idx = kidx ∧ r.encoding = enc ∧
    r.record_start_offset = r_start_ofset ∧ r.comp_type = ctype ∧
    r.record_encrypted = renc ∧ r.relative_record_start = rela_stat ∧
    r.relative_record_end = rela_end := by
  intro r hrdef
  subst hrdef
  refine ⟨rfl, rfl, rfl, ?_, rfl, ?_, ?_, rfl, ?_, ?_⟩ <;>
    simp [record.make, Nat.mod_eq_of_lt] <;> omega

/-- C10 witness: a concrete constructor call with a 64-bit compressed size
2^32 + 7 and decompressed size 2^33 + 5 stores the truncated 32-bit values
7 and 5 while all other arguments are stored unchanged. -/
theorem record_make_truncates_witness :
    (record.make [97] 3 0 12 (2 ^ 32 + 7) (2 ^ 33 + 5) 2 false 0 9).comp_size
        = (2 ^ 32 + 7) % 2 ^ 32 ∧
    (record.make [97] 3 0 12 (2 ^ 32 + 7) (2 ^ 33 + 5) 2 false 0 9).uncomp_size
        = (2 ^ 33 + 5) % 2 ^ 32 ∧
    (record.make [97] 3 0 12 (2 ^ 32 + 7) (2 ^ 33 + 5) 2 false 0 9).key_idx = 3 := by
  have h := record_make_truncates [97] 3 0 12 (2 ^ 32 + 7) (2 ^ 33 + 5) 2 false 0 9
    (by norm_num) (by norm_num) (by norm_num) (by norm_num) (by norm_num)
    (record.make [97] 3 0 12 (2 ^ 32 + 7) (2 ^ 33 + 5) 2 false 0 9) rfl
  exact ⟨h.1, h.2.1, h.2.2.2.1⟩

/-- u32le decodes a 4-byte little-endian unsigned integer; the header
length field and the header checksum are the only little-endian fields of
the format (spec §4.6, mdict.h lines 459-468). -/
def u32le (b : List Nat) : Nat :=
  b.getD 0 0 + 2 ^ 8 * b.getD 1 0 + 2 ^ 16 * b.getD 2 0 + 2 ^ 24 * b.getD 3 0

/-- Modelled from the spec: the body of `Mdict::read_header` is not in the
repository header, which documents only the layout (mdict.h lines 459-472):
a 4-byte LE length field, `header_bytes_size` bytes of UTF-16LE XML, then a
4-byte ADLER-32.  read_header returns the file offset at which the key
block section starts together with the header XML bytes. -/
def Mdict.read_header (file : List Nat) : Nat × List Nat :=
  let header_bytes_size := u32le (file.take 4)
  (4 + header_bytes_size + 4, (file.drop 4).take header_bytes_size)

/-- Mdict.key_block_start_offset is the file offset of the key block
section after the header is parsed: 4-byte length field plus the header
XML plus the 4-byte checksum (mdict.h line 471: header_bytes_size + 8). -/
def Mdict.key_block_start_offset (header_bytes_size : Nat) : Nat :=
  4 + header_bytes_size + 4

/-- key_block_header_fields lists the byte widths of the key-block header
fields (spec §4.7): five u64 fields plus a u32 checksum for wire version
at least 2.0, four u32 fields below 2.0. -/
def key_block_header_fields (version : ℚ) : List Nat :=
  if 2 ≤ version then [8, 8, 8, 8, 8, 4] else [4, 4, 4, 4]

/-- Modelled from the spec: the body of `Mdict::read_key_block_header` is
absent; mdict.h lines 474-476 document the resulting offset
(key_block_start_offset + 40 + 4 for version 2.0 and later, + 16 below).
key_block_info_start_offset is where the key-block-info table begins. -/
def Mdict.key_block_info_start_offset (version : ℚ) (header_bytes_size : Nat) : Nat :=
  Mdict.key_block_start_offset header_bytes_size + (key_block_header_fields version).sum

/-- C3: after the header is parsed the key-block section starts at
4 + header_len_bytes + 4, and the key-block-info table begins 44 bytes
later for wire version 2.0 and above (five u64 fields plus a u32
checksum) and 16 bytes later below 2.0 (four u32 fields). -/
theorem key_block_offsets (version : ℚ) (file : List Nat) :
    (Mdict.read_header file).1 = Mdict.key_block_start_offset (u32le (file.take 4)) ∧
    (∀ header_bytes_size : Nat,
      Mdict.key_block_start_offset header_bytes_size = 4 + header_bytes_size + 4) ∧
    (2 ≤ version → (key_block_header_fields version).length = 6 ∧
      ∀ header_bytes_size : Nat,
        Mdict.key_block_info_start_offset version header_bytes_size =
          Mdict.key_block_start_offset header_bytes_size + 44) ∧
    (version < 2 → (key_block_header_fields version).length = 4 ∧
      ∀ header_bytes_size : Nat,
        Mdict.key_block_info_start_offset version header_bytes_size =
          Mdict.key_block_start_offset header_bytes_size + 16) := by
  refine ⟨rfl, fun _ => rfl, fun h => ?_, fun h => ?_⟩
  · constructor <;>
      simp [Mdict.key_block_info_start_offset, key_block_header_fields, h]
  · constructor <;>
      simp [Mdict.key_block_info_start_offset, key_block_header_fields, not_le.mpr h]

/-- C3 witness: the offsets evaluated at version 2.0 and 1.2 with a
100-byte header. -/
theorem key_block_offsets_witness :
    Mdict.key_block_info_start_offset 2 100 = Mdict.key_block_start_offset 100 + 44 ∧
    Mdict.key_block_info_start_offset (6 / 5) 100 = Mdict.key_block_start_offset 100 + 16 :=
  ⟨((key_block_offsets 2 []).2.2.1 (by norm_num)).2 100,
   ((key_block_offsets (6 / 5) []).2.2.2 (by norm_num)).2 100⟩

/-- mdxSwap is the per-byte nibble swap of the key-info stream transform:
the high and low nibble of the ciphertext byte are exchanged
(spec §4.5: ((c >> 4) | (c << 4)) & 0xFF). -/
def mdxSwap (c : Nat) : Nat :=
  ((c >>> 4) ||| (c <<< 4)) &&& 255

/-- Modelled from the spec: the stream-transform loop of the key-info
decryption (spec §4.5 step 3); the implementation file with
`Mdict::read_key_block_info` is not in the repository.  fastDecryptGo
carries the previous ciphertext byte `prev` and the running byte index
`i`, and produces one plaintext byte per ciphertext byte. -/
def fastDecryptGo (k : List Nat) (prev : Nat) (i : Nat) : List Nat → List Nat
  | [] => []
  | c :: rest =>
      (mdxSwap c ^^^ prev ^^^ (i &&& 255) ^^^ k.getD (i % 16) 0) ::
        fastDecryptGo k c (i + 1) rest

/-- fast_decrypt runs the key-info stream transform over the encrypted
body with initial previous byte 0x36 and index 0 (spec §4.5 step 3). -/
def fast_decrypt (k : List Nat) (data : List Nat) : List Nat :=
  fastDecryptGo k 54 0 data

/-- be32 is the 4-byte big-endian encoding of the low 32 bits of a
number. -/
def be32 (n : Nat) : List Nat :=
  [(n >>> 24) &&& 255, (n >>> 16) &&& 255, (n >>> 8) &&& 255, n &&& 255]

/-- Modelled from the spec: the key-info decryption key derivation
(spec §4.5 steps 1-2).  RIPEMD-128 itself lives in ripemd128.h, which is
not part of the repository sources, so it enters as a function parameter;
the seed is the low 32 bits of the stored key_block_info_size in
big-endian order followed by the bytes 0x95 0x36 0x00 0x00. -/
def mdx_decrypt_key (ripemd128 : List Nat → List Nat) (key_block_info_size : Nat) : List Nat :=
  ripemd128 (be32 (key_block_info_size % 2 ^ 32) ++ [149, 54, 0, 0])

/-- Modelled from the spec: the whole key-info decryption (spec §4.5):
the first 8 bytes of the encrypted region (compression marker plus
ADLER-32) are left intact, the rest is stream-transformed. -/
def mdx_decrypt (ripemd128 : List Nat → List Nat) (key_block_info_size : Nat)
    (cipher : List Nat) : List Nat :=
  cipher.take 8 ++ fast_decrypt (mdx_decrypt_key ripemd128 key_block_info_size) (cipher.drop 8)

theorem fastDecryptGo_length (k : List Nat) :
    ∀ (l : List Nat) (prev i0 : Nat), (fastDecryptGo k prev i0 l).length = l.length := by
  intro l
  induction l with
  | nil => intro prev i0; rfl
  | cons c rest ih => intro prev i0; simp [fastDecryptGo, ih]

theorem fastDecryptGo_getD (k : List Nat) (l : List Nat) :
    ∀ (prev i0 j : Nat), j < l.length →
      (fastDecryptGo k prev i0 l).getD j 0 =
        mdxSwap (l.getD j 0) ^^^ (if j = 0 then prev else l.getD (j - 1) 0) ^^^
          ((i0 + j) &&& 255) ^^^ k.getD ((i0 + j) % 16) 0 := by
  induction l with
  | nil => intro prev i0 j h; simp at h
  | cons c rest ih =>
    intro prev i0 j h
    cases j with
    | zero => simp [fastDecryptGo]
    | succ j =>
      have h' : j < rest.length := by simpa using h
      have ihx := ih c (i0 + 1) j h'
      have e1 : i0 + 1 + j = i0 + (j + 1) := by omega
      rw [e1] at ihx
      simp only [fastDecryptGo, List.getD_cons_succ]
      rw [ihx]
      cases j with
      | zero => simp
      | succ j' => simp

/-- C2: when key-info encryption is active the decryption key is
RIPEMD128 of the 8-byte seed (low 32 bits of key_block_info_size,
big-endian, then 0x95 0x36 0x00 0x00), the first 8 bytes of the region
stay intact, and each body byte i of the output equals the nibble swap of
ciphertext[i] XOR the previous ciphertext byte (0x36 at i = 0) XOR
(i & 0xFF) XOR K[i % 16]. -/
theorem mdx_decrypt_spec (ripemd128 : List Nat → List Nat)
    (key_block_info_size : Nat) (cipher : List Nat) (i : Nat)
    (hi : 8 + i < cipher.length) :
    (mdx_decrypt ripemd128 key_block_info_size cipher).take 8 = cipher.take 8 ∧
    mdx_decrypt_key ripemd128 key_block_info_size =
      ripemd128 (be32 (key_block_info_size % 2 ^ 32) ++ [149, 54, 0, 0]) ∧
    (mdx_decrypt ripemd128 key_block_info_size cipher).getD (8 + i) 0 =
      mdxSwap (cipher.getD (8 + i) 0) ^^^
        (if i = 0 then 54 else cipher.getD (8 + i - 1) 0) ^^^
        (i &&& 255) ^^^
        (mdx_decrypt_key ripemd128 key_block_info_size).getD (i % 16) 0 := by
  have hlen : (cipher.take 8).length = 8 := by
    simp [List.length_take]; omega
  refine ⟨?_, rfl, ?_⟩
  · simp [mdx_decrypt, List.take_append, hlen]
  · have hdrop : i < (cipher.drop 8).length := by simp; omega
    have hgo := fastDecryptGo_getD (mdx_decrypt_key ripemd128 key_block_info_size)
      (cipher.drop 8) 54 0 i hdrop
    have happ : (mdx_decrypt ripemd128 key_block_info_size cipher).getD (8 + i) 0 =
        (fast_decrypt (mdx_decrypt_key ripemd128 key_block_info_size) (cipher.drop 8)).getD i 0 := by
      have h8 : (cipher.take 8).length ≤ 8 + i := by omega
      simp [mdx_decrypt, List.getD_eq_getElem?_getD, List.getElem?_append_right h8, hlen]
    rw [happ, fast_decrypt, hgo]
    have hd1 : (cipher.drop 8).getD i 0 = cipher.getD (8 + i) 0 := by
      simp [List.getD_eq_getElem?_getD, List.getElem?_drop]
    have hd2 : i ≠ 0 → (cipher.drop 8).getD (i - 1) 0 = cipher.getD (8 + i - 1) 0 := by
      intro h0
      have e2 : 8 + (i - 1) = 8 + i - 1 := by omega
      rw [List.getD_eq_getElem?_getD, List.getElem?_drop, e2, ← List.getD_eq_getElem?_getD]
    cases Nat.eq_zero_or_pos i with
    | inl h0 => subst h0; simp [hd1]
    | inr hpos =>
      have h0 : i ≠ 0 := by omega
      simp [hd1, hd2 h0, h0]
      have e3 : 8 + (i - 1) = 7 + i := by omega
      rw [e3]

/-- C2 witness: the decryption evaluated at a concrete 10-byte region with
a constant RIPEMD stand-in, at body index 1. -/
theorem mdx_decrypt_spec_witness :
    8 + 1 < (List.length [2, 0, 0, 0, 10, 20, 30, 40, 200, 100]) ∧
    (mdx_decrypt (fun _ => [7, 9]) 5 [2, 0, 0, 0, 10, 20, 30, 40, 200, 100]).getD 9 0 =
      mdxSwap 100 ^^^ 200 ^^^ 1 ^^^ 9 := by
  have h := mdx_decrypt_spec (fun _ => [7, 9]) 5 [2, 0, 0, 0, 10, 20, 30, 40, 200, 100] 1
    (by norm_num)
  refine ⟨by norm_num, ?_⟩
  have h3 := h.2.2
  norm_num [mdx_decrypt_key] at h3 ⊢
  exact h3

/-- record_header_item mirrors the class of mdict.h lines 189-204: one
entry of the record-block-info table, carrying the block id, its
compressed and decompressed sizes, and the exclusive running sums of the
sizes of all earlier blocks. -/
structure record_header_item where
  block_id : Nat
  compressed_size : Nat
  decompressed_size : Nat
  compressed_size_accumulator : Nat
  decompressed_size_accumulator : Nat
deriving Repr, DecidableEq

/-- buildRecordHeaderGo accumulates the record-block-info table from the
per-block (compressed, decompressed) size pairs, keeping the running
sums exactly as the accumulator fields of record_header_item. -/
def buildRecordHeaderGo (bid : Nat) (comp_accu : Nat) (decomp_accu : Nat) :
    List (Nat × Nat) → List record_header_item
  | [] => []
  | (csize, dsize) :: rest =>
      ⟨bid, csize, dsize, comp_accu, decomp_accu⟩ ::
        buildRecordHeaderGo (bid + 1) (comp_accu + csize) (decomp_accu + dsize) rest

/-- Modelled from the spec: the body of `Mdict::read_record_block_header`
is absent; spec §4.9 has it read record_block_num (comp, decomp) size
pairs and compute the prefix sums into the record_header table. -/
def Mdict.read_record_block_header (pairs : List (Nat × Nat)) : List record_header_item :=
  buildRecordHeaderGo 0 0 0 pairs

/-- recPrefix sizes i is the exclusive prefix sum of the decompressed
record-block sizes before block i: the decomp_prefix_sum of spec §4.10. -/
def recPrefix (sizes : List Nat) (i : Nat) : Nat :=
  (sizes.take i).sum

/-- bsearchGo is the fuelled binary-search loop over block indices: it
returns the largest index r in [lo, hi] with f r at most off, under the
invariants f lo ≤ off < f (hi + 1). -/
def bsearchGo (f : Nat → Nat) (off : Nat) : Nat → Nat → Nat → Nat
  | 0, lo, _ => lo
  | fuel + 1, lo, hi =>
      if lo < hi then
        if f ((lo + hi + 1) / 2) ≤ off then bsearchGo f off fuel ((lo + hi + 1) / 2) hi
        else bsearchGo f off fuel lo ((lo + hi + 1) / 2 - 1)
      else lo

/-- bsearchLargest runs the binary search over the whole range with
enough fuel. -/
def bsearchLargest (f : Nat → Nat) (off : Nat) (lo : Nat) (hi : Nat) : Nat :=
  bsearchGo f off (hi - lo) lo hi

/-- Modelled from the spec: the body of `Mdict::reduce_record_block_offset`
is absent (mdict.h lines 328-333 declare it); spec §4.10 step 1
binary-searches the record-block-info table for the block whose
decompressed span contains record_start. -/
def Mdict.reduce_record_block_offset (sizes : List Nat) (record_start : Nat) : Nat :=
  bsearchLargest (recPrefix sizes) record_start 0 (sizes.length - 1)

/-- entryStart is step 3 of spec §4.10: the entry's start inside the
decompressed bytes of the block found by the search. -/
def entryStart (sizes : List Nat) (record_start : Nat) : Nat :=
  record_start - recPrefix sizes (Mdict.reduce_record_block_offset sizes record_start)

theorem bsearchGo_spec (f : Nat → Nat) (off : Nat) :
    ∀ (fuel lo hi : Nat), hi - lo ≤ fuel → lo ≤ hi → f lo ≤ off → off < f (hi + 1) →
      lo ≤ bsearchGo f off fuel lo hi ∧ bsearchGo f off fuel lo hi ≤ hi ∧
      f (bsearchGo f off fuel lo hi) ≤ off ∧ off < f (bsearchGo f off fuel lo hi + 1) := by
  intro fuel
  induction fuel with
  | zero =>
    intro lo hi hfl hle hlo hhi
    have : lo = hi := by omega
    subst this
    exact ⟨Nat.le_refl _, Nat.le_refl _, hlo, hhi⟩
  | succ fuel ih =>
    intro lo hi hfl hle hlo hhi
    by_cases h : lo < hi
    · have hm1 : lo < (lo + hi + 1) / 2 := by omega
      have hm2 : (lo + hi + 1) / 2 ≤ hi := by omega
      by_cases hf : f ((lo + hi + 1) / 2) ≤ off
      · have hrec := ih ((lo + hi + 1) / 2) hi (by omega) (by omega) hf hhi
        simp only [bsearchGo, if_pos h, if_pos hf]
        exact ⟨by omega, hrec.2.1, hrec.2.2⟩
      · have e : (lo + hi + 1) / 2 - 1 + 1 = (lo + hi + 1) / 2 := by omega
        have hfm : off < f ((lo + hi + 1) / 2 - 1 + 1) := by
          rw [e]; omega
        have hrec := ih lo ((lo + hi + 1) / 2 - 1) (by omega) (by omega) hlo hfm
        simp only [bsearchGo, if_pos h, if_neg hf]
        exact ⟨hrec.1, by omega, hrec.2.2⟩
    · have : lo = hi := by omega
      subst this
      simp only [bsearchGo, if_neg h]
      exact ⟨Nat.le_refl _, Nat.le_refl _, hlo, hhi⟩

theorem recPrefix_succ (sizes : List Nat) (i : Nat) (h : i < sizes.length) :
    recPrefix sizes (i + 1) = recPrefix sizes i + sizes.getD i 0 := by
  unfold recPrefix
  rw [List.sum_take_succ sizes i h, List.getD_eq_getElem sizes 0 h]

theorem recPrefix_length (sizes : List Nat) : recPrefix sizes sizes.length = sizes.sum := by
  simp [recPrefix]

theorem recPrefix_of_le (sizes : List Nat) (j : Nat) (h : sizes.length ≤ j) :
    recPrefix sizes j = sizes.sum := by
  simp [recPrefix, List.take_of_length_le h]

theorem recPrefix_mono (sizes : List Nat) (i : Nat) (j : Nat) (hij : i ≤ j) :
    recPrefix sizes i ≤ recPrefix sizes j := by
  unfold recPrefix
  have h1 : sizes.take i = (sizes.take j).take i := by
    rw [List.take_take, Nat.min_eq_left hij]
  have h2 : (sizes.take j).take i ++ (sizes.take j).drop i = sizes.take j :=
    List.take_append_drop i (sizes.take j)
  calc (sizes.take i).sum = ((sizes.take j).take i).sum := by rw [h1]
    _ ≤ ((sizes.take j).take i).sum + ((sizes.take j).drop i).sum := Nat.le_add_right _ _
    _ = ((sizes.take j).take i ++ (sizes.take j).drop i).sum := (List.sum_append).symm
    _ = (sizes.take j).sum := by rw [h2]

theorem recPrefix_cons (d : Nat) (ls : List Nat) (i : Nat) :
    recPrefix (d :: ls) (i + 1) = d + recPrefix ls i := by
  simp [recPrefix, List.take_succ_cons]

theorem buildRecordHeaderGo_accumulator :
    ∀ (pairs : List (Nat × Nat)) (bid ca da i : Nat), i < pairs.length →
      ((buildRecordHeaderGo bid ca da pairs).getD i ⟨0, 0, 0, 0, 0⟩).decompressed_size_accumulator
          = da + recPrefix (pairs.map Prod.snd) i ∧
      ((buildRecordHeaderGo bid ca da pairs).getD i ⟨0, 0, 0, 0, 0⟩).decompressed_size
          = (pairs.map Prod.snd).getD i 0 ∧
      ((buildRecordHeaderGo bid ca da pairs).getD i ⟨0, 0, 0, 0, 0⟩).block_id = bid + i := by
  intro pairs
  induction pairs with
  | nil => intro bid ca da i h; simp at h
  | cons p rest ih =>
    intro bid ca da i h
    obtain ⟨c, d⟩ := p
    cases i with
    | zero => simp [buildRecordHeaderGo, recPrefix]
    | succ i =>
      have h' : i < rest.length := by simpa using h
      have hx := ih (bid + 1) (ca + c) (da + d) i h'
      simp only [buildRecordHeaderGo, List.getD_cons_succ, List.map_cons]
      rw [recPrefix_cons]
      refine ⟨?_, ?_, ?_⟩
      · rw [hx.1]; omega
      · rw [hx.2.1]
      · rw [hx.2.2]; omega

theorem read_record_block_header_accumulator (pairs : List (Nat × Nat)) (i : Nat)
    (h : i < pairs.length) :
    ((Mdict.read_record_block_header pairs).getD i ⟨0, 0, 0, 0, 0⟩).decompressed_size_accumulator
      = recPrefix (pairs.map Prod.snd) i := by
  have hx := buildRecordHeaderGo_accumulator pairs 0 0 0 i h
  simpa [Mdict.read_record_block_header] using hx.1

theorem reduce_record_block_offset_bracketing (sizes : List Nat) (record_start : Nat)
    (hin : record_start < sizes.sum) :
    Mdict.reduce_record_block_offset sizes record_start < sizes.length ∧
    recPrefix sizes (Mdict.reduce_record_block_offset sizes record_start) ≤ record_start ∧
    record_start < recPrefix sizes (Mdict.reduce_record_block_offset sizes record_start) +
      sizes.getD (Mdict.reduce_record_block_offset sizes record_start) 0 ∧
    (∀ j, j < sizes.length → recPrefix sizes j ≤ record_start →
        record_start < recPrefix sizes j + sizes.getD j 0 →
        j = Mdict.reduce_record_block_offset sizes record_start) ∧
    entryStart sizes record_start = record_start -
      recPrefix sizes (Mdict.reduce_record_block_offset sizes record_start) := by
  have hne : 1 ≤ sizes.length := by
    rcases sizes with _ | ⟨a, t⟩
    · simp at hin
    · simp
  have e : sizes.length - 1 + 1 = sizes.length := by omega
  have hb := bsearchGo_spec (recPrefix sizes) record_start (sizes.length - 1) 0
    (sizes.length - 1) (by omega) (by omega) (by simp [recPrefix])
    (by rw [e, recPrefix_length]; exact hin)
  have hru : Mdict.reduce_record_block_offset sizes record_start =
      bsearchGo (recPrefix sizes) record_start (sizes.length - 1) 0 (sizes.length - 1) := rfl
  obtain ⟨h1, h2, h3, h4⟩ := hb
  rw [← hru] at h1 h2 h3 h4
  have hrlt : Mdict.reduce_record_block_offset sizes record_start < sizes.length := by omega
  have h4' : record_start <
      recPrefix sizes (Mdict.reduce_record_block_offset sizes record_start) +
        sizes.getD (Mdict.reduce_record_block_offset sizes record_start) 0 := by
    rw [← recPrefix_succ sizes _ hrlt]
    exact h4
  refine ⟨hrlt, h3, h4', ?_, rfl⟩
  intro j hj hj1 hj2
  rcases Nat.lt_trichotomy j (Mdict.reduce_record_block_offset sizes record_start)
    with hlt | heq | hgt
  · exfalso
    have hstep : recPrefix sizes (j + 1) ≤
        recPrefix sizes (Mdict.reduce_record_block_offset sizes record_start) :=
      recPrefix_mono sizes (j + 1) _ (by omega)
    rw [recPrefix_succ sizes j hj] at hstep
    omega
  · exact heq
  · exfalso
    have hstep : recPrefix sizes (Mdict.reduce_record_block_offset sizes record_start + 1) ≤
        recPrefix sizes j := recPrefix_mono sizes _ j (by omega)
    rw [recPrefix_succ sizes _ hrlt] at hstep
    omega

/-- C4: given a record_offset taken from a key entry, the record-block
search selects exactly the block r for which
decomp_prefix_sum[r] ≤ record_offset < decomp_prefix_sum[r] + decomp_size[r],
and the entry's start within that block's decompressed bytes is
record_offset - decomp_prefix_sum[r]. -/
theorem reduce_record_block_offset_spec (sizes : List Nat) (record_start : Nat)
    (hin : record_start < sizes.sum) :
    Mdict.reduce_record_block_offset sizes record_start < sizes.length ∧
    recPrefix sizes (Mdict.reduce_record_block_offset sizes record_start) ≤ record_start ∧
    record_start < recPrefix sizes (Mdict.reduce_record_block_offset sizes record_start) +
      sizes.getD (Mdict.reduce_record_block_offset sizes record_start) 0 ∧
    (∀ j, j < sizes.length → recPrefix sizes j ≤ record_start →
        record_start < recPrefix sizes j + sizes.getD j 0 →
        j = Mdict.reduce_record_block_offset sizes record_start) ∧
    entryStart sizes record_start = record_start -
      recPrefix sizes (Mdict.reduce_record_block_offset sizes record_start) :=
  reduce_record_block_offset_bracketing sizes record_start hin

/-- C4 witness: with decompressed sizes [3, 4, 5] and record offset 8 the
search selects block 2 (prefix sums 0, 3, 7) and the start within the
block's decompressed bytes is 1. -/
theorem reduce_record_block_offset_spec_witness :
    Mdict.reduce_record_block_offset [3, 4, 5] 8 = 2 ∧
    recPrefix [3, 4, 5] (Mdict.reduce_record_block_offset [3, 4, 5] 8) ≤ 8 ∧
    8 < recPrefix [3, 4, 5] (Mdict.reduce_record_block_offset [3, 4, 5] 8) +
      [3, 4, 5].getD (Mdict.reduce_record_block_offset [3, 4, 5] 8) 0 ∧
    entryStart [3, 4, 5] 8 = 1 := by
  have h := reduce_record_block_offset_spec [3, 4, 5] 8 (by norm_num)
  exact ⟨by decide, h.2.1, h.2.2.1, by decide⟩

/-- key_list_item mirrors the class of mdict.h lines 181-187: one decoded
key entry, the cursor into the decompressed record stream
(record_start) and the key text bytes (key_word). -/
structure key_list_item where
  record_start : Nat
  key_word : List Nat
deriving Repr, DecidableEq

/-- beNum decodes a big-endian unsigned integer from a byte list of the
active width (spec §4.2). -/
def beNum : List Nat → Nat
  | [] => 0
  | b :: rest => b * 2 ^ (8 * rest.length) + beNum rest

/-- Modelled from the spec: the body of `Mdict::split_key_block` is absent
(mdict.h lines 541-543 declare it); spec §4.8 has it repeatedly read an
active-width big-endian record_offset, then the key text up to the NUL
terminator, and emit a (record_offset, key_text) entry until the buffer
is exhausted.  The loop is fuelled by the buffer length, which strictly
bounds the number of entries since every step consumes at least one
byte. -/
def splitKeyBlockGo (number_width : Nat) : Nat → List Nat → List key_list_item
  | 0, _ => []
  | _, [] => []
  | fuel + 1, key_block =>
      ⟨beNum (key_block.take number_width),
        (key_block.drop number_width).takeWhile (fun b => b != 0)⟩ ::
        splitKeyBlockGo number_width fuel
          (((key_block.drop number_width).dropWhile (fun b => b != 0)).drop 1)

/-- split_key_block decodes one decompressed key block into its entry
list (spec §4.8). -/
def split_key_block (number_width : Nat) (key_block : List Nat) : List key_list_item :=
  splitKeyBlockGo number_width key_block.length key_block

/-- encodedOffsetsGo reads only the record offsets encoded in a key block
buffer, stepping exactly as splitKeyBlockGo does. -/
def encodedOffsetsGo (number_width : Nat) : Nat → List Nat → List Nat
  | 0, _ => []
  | _, [] => []
  | fuel + 1, key_block =>
      beNum (key_block.take number_width) ::
        encodedOffsetsGo number_width fuel
          (((key_block.drop number_width).dropWhile (fun b => b != 0)).drop 1)

/-- encodedOffsets lists the record offsets encoded in a key block
buffer in buffer order. -/
def encodedOffsets (number_width : Nat) (key_block : List Nat) : List Nat :=
  encodedOffsetsGo number_width key_block.length key_block

theorem splitKeyBlockGo_map_record_start (number_width : Nat) :
    ∀ (fuel : Nat) (key_block : List Nat),
      (splitKeyBlockGo number_width fuel key_block).map key_list_item.record_start =
        encodedOffsetsGo number_width fuel key_block := by
  intro fuel
  induction fuel with
  | zero => intro key_block; cases key_block <;> rfl
  | succ fuel ih =>
    intro key_block
    cases key_block with
    | nil => rfl
    | cons b bs => simp [splitKeyBlockGo, encodedOffsetsGo, ih]

theorem split_key_block_map_record_start (number_width : Nat) (key_block : List Nat) :
    (split_key_block number_width key_block).map key_list_item.record_start =
      encodedOffsets number_width key_block :=
  splitKeyBlockGo_map_record_start number_width key_block.length key_block

/-- C7 counterexample: a 20-byte key block encoding the two entries
(0, "a") and (0, "b") decodes without complaint, yet its record offsets
are not strictly increasing (they collide), so entries of a decoded key
block need not be strictly monotonic in record_offset. -/
theorem split_key_block_not_strictly_monotonic :
    split_key_block 8 [0, 0, 0, 0, 0, 0, 0, 0, 97, 0, 0, 0, 0, 0, 0, 0, 0, 0, 98, 0] =
      [⟨0, [97]⟩, ⟨0, [98]⟩] ∧
    ¬ List.Chain' (fun a b => a.record_start < b.record_start)
      (split_key_block 8 [0, 0, 0, 0, 0, 0, 0, 0, 97, 0, 0, 0, 0, 0, 0, 0, 0, 0, 98, 0]) := by
  have hval : split_key_block 8
      [0, 0, 0, 0, 0, 0, 0, 0, 97, 0, 0, 0, 0, 0, 0, 0, 0, 0, 98, 0] =
        [⟨0, [97]⟩, ⟨0, [98]⟩] := by decide
  refine ⟨hval, ?_⟩
  rw [hval]
  simp [List.chain'_cons]

/-- C7 (amended): the key-block decoder emits entries in buffer order
carrying exactly the offsets encoded in the buffer, so whenever the
encoded record offsets across the dictionary's decoded key blocks are
non-decreasing in sequence, the full decoded entry sequence is sorted
non-strictly by record_offset; strict monotonicity (and hence
uniqueness of record_offset) need not hold. -/
theorem split_key_block_sorted (number_width : Nat) (bufs : List (List Nat))
    (h : List.Chain' (fun a b => a ≤ b) ((bufs.map (encodedOffsets number_width)).flatten)) :
    List.Chain' (fun a b => a.record_start ≤ b.record_start)
      ((bufs.map (split_key_block number_width)).flatten) := by
  have hmap : ((bufs.map (split_key_block number_width)).flatten).map key_list_item.record_start
      = (bufs.map (encodedOffsets number_width)).flatten := by
    rw [List.map_flatten, List.map_map]
    congr 1
    exact List.map_congr_left fun kb _ =>
      split_key_block_map_record_start number_width kb
  rw [← hmap] at h
  exact (List.chain'_map key_list_item.record_start).mp h

/-- C7 amended-claim witness: two concrete blocks with non-decreasing
encoded offsets 0, 5 decode to an entry sequence sorted non-strictly by
record_offset. -/
theorem split_key_block_sorted_witness :
    List.Chain' (fun a b => a ≤ b)
      (([[0, 0, 0, 0, 0, 0, 0, 0, 97, 0], [0, 0, 0, 0, 0, 0, 0, 5, 98, 0]].map
        (encodedOffsets 8)).flatten) ∧
    List.Chain' (fun a b => a.record_start ≤ b.record_start)
      (([[0, 0, 0, 0, 0, 0, 0, 0, 97, 0], [0, 0, 0, 0, 0, 0, 0, 5, 98, 0]].map
        (split_key_block 8)).flatten) := by
  have h1 : ([[0, 0, 0, 0, 0, 0, 0, 0, 97, 0], [0, 0, 0, 0, 0, 0, 0, 5, 98, 0]].map
      (encodedOffsets 8)).flatten = [0, 5] := by decide
  have h2 : List.Chain' (fun a b => a ≤ b)
      (([[0, 0, 0, 0, 0, 0, 0, 0, 97, 0], [0, 0, 0, 0, 0, 0, 0, 5, 98, 0]].map
        (encodedOffsets 8)).flatten) := by
    rw [h1]; simp [List.chain'_cons]
  exact ⟨h2, split_key_block_sorted 8 _ h2⟩

/-- key_block_item models one key block as the lookup path sees it after
init: the first_key/last_key bounds carried by the key-block-info table
(class key_block_info, mdict.h lines 144-179) together with the block's
decoded entries (the result of decode_key_block_by_block_id, mdict.h
lines 395-396). -/
structure key_block_item where
  first_key : List Nat
  last_key : List Nat
  entries : List key_list_item
deriving Repr, DecidableEq

/-- MdictModel is the post-init state of a dictionary as the facade
operations use it: the key blocks with their decoded entries, the
decompressed record-block sizes, and the concatenated decompressed
record stream that those blocks tile. -/
structure MdictModel where
  blocks : List key_block_item
  record_sizes : List Nat
  stream : List Nat
deriving Repr, DecidableEq

/-- Modelled from the spec: the body of `Mdict::keyList` is absent
(mdict.h line 344 declares it); it enumerates all decoded
(record_offset, key_text) entries of the dictionary in native order. -/
def Mdict.keyList (m : MdictModel) : List key_list_item :=
  (m.blocks.map key_block_item.entries).flatten

/-- nextOffset is the end cursor for the record starting at off: the
smallest strictly larger record_start among the dictionary's entries,
or the total decompressed length when none exists (spec §4.10 step 4
together with §9: the end is the next distinct offset). -/
def nextOffset (m : MdictModel) (off : Nat) : Nat :=
  ((((Mdict.keyList m).map key_list_item.record_start).filter (fun o => off < o)).foldr
    min m.stream.length)

/-- Modelled from the spec: the bodies of `Mdict::parse_definition` and
`Mdict::decode_record_block_by_rid` are absent (mdict.h lines 346-347
and 410-411 declare them); spec §4.10 locates the owning record block
via the binary search, decompresses it, and slices its bytes from
start = record_start - decomp_prefix_sum[r] to the translated end. -/
def Mdict.parse_definition (m : MdictModel) (record_start : Nat) : List Nat :=
  let r := Mdict.reduce_record_block_offset m.record_sizes record_start
  let p := recPrefix m.record_sizes r
  let blockBytes := (m.stream.drop p).take (m.record_sizes.getD r 0)
  (blockBytes.drop (record_start - p)).take
    (nextOffset m record_start - p - (record_start - p))

/-- LookupResult is the outcome of an exact lookup: the record body, or
the NotFound value outcome (spec §7: NotFound is never thrown). -/
inductive LookupResult where
  | found (body : List Nat)
  | notFound
deriving Repr, DecidableEq

/-- foldKey applies the per-byte comparison fold (ASCII case fold for
text encodings, the identity for MDD byte-identity names; spec §4.11)
to a key. -/
def foldKey (fold : Nat → Nat) (w : List Nat) : List Nat :=
  w.map fold

/-- blockMatches scans one candidate key block: check the folded
first_key bound, then filter the block's decoded entries for
fold-equality with the word (spec §4.11). -/
def blockMatches (fold : Nat → Nat) (word : List Nat) (b : key_block_item) :
    List key_list_item :=
  if foldKey fold b.first_key ≤ foldKey fold word then
    b.entries.filter (fun e => foldKey fold e.key_word == foldKey fold word)
  else []

/-- findEntryPred is the candidate-block test of the binary search over
the key-block-info table: the folded word is at most the folded
last_key. -/
def findEntryPred (fold : Nat → Nat) (word : List Nat) (b : key_block_item) : Bool :=
  decide (foldKey fold word ≤ foldKey fold b.last_key)

/-- findEntry is the block-navigation core of the lookup path
(spec §4.11): find the first candidate key block whose folded last_key
is at least the folded word, then scan that block. -/
def findEntry (fold : Nat → Nat) (blocks : List key_block_item) (word : List Nat) :
    List key_list_item :=
  match blocks.find? (findEntryPred fold word) with
  | none => []
  | some b => blockMatches fold word b

/-- Modelled from the spec: the body of `Mdict::lookup` is absent
(mdict.h lines 259-264 declare it); spec §4.11: navigate to the
candidate block, scan for fold-equal keys, fetch each match's body from
the record section, and concatenate multiple matches separated by a
single record separator (the spec fixes no byte; byte 30, the ASCII
record separator, stands for it here). -/
def Mdict.lookup (m : MdictModel) (fold : Nat → Nat) (word : List Nat) : LookupResult :=
  match findEntry fold m.blocks word with
  | [] => .notFound
  | es => .found (List.intercalate [30]
      (es.map (fun e => Mdict.parse_definition m e.record_start)))

theorem mem_of_getLast?_eq (l : List key_list_item) (a : key_list_item)
    (h : l.getLast? = some a) : a ∈ l := by
  have hx := List.mem_getLast?_eq_getLast (l := l) (x := a) (by simp [h])
  obtain ⟨hne, rfl⟩ := hx
  exact List.getLast_mem hne

theorem pairwise_rel_of_head {R : key_list_item → key_list_item → Prop}
    {l : List key_list_item} {hE e : key_list_item}
    (hp : List.Pairwise R l) (hh : l.head? = some hE) (he : e ∈ l) :
    e = hE ∨ R hE e := by
  cases l with
  | nil => simp at hh
  | cons x t =>
    rw [List.head?_cons, Option.some_inj] at hh
    subst hh
    rcases List.mem_cons.mp he with rfl | he2
    · exact Or.inl rfl
    · exact Or.inr ((List.pairwise_cons.mp hp).1 e he2)

theorem pairwise_rel_of_getLast {R : key_list_item → key_list_item → Prop} :
    ∀ {l : List key_list_item} {zE e : key_list_item},
      List.Pairwise R l → l.getLast? = some zE → e ∈ l → e = zE ∨ R e zE := by
  intro l
  induction l with
  | nil => intro zE e _ hz _; simp at hz
  | cons x t ih =>
    intro zE e hp hz he
    cases t with
    | nil =>
      rw [List.getLast?_singleton, Option.some_inj] at hz
      subst hz
      rcases List.mem_cons.mp he with rfl | he2
      · exact Or.inl rfl
      · simp at he2
    | cons y t2 =>
      rw [List.getLast?_cons_cons] at hz
      rcases List.mem_cons.mp he with rfl | he2
      · have hzmem : zE ∈ y :: t2 := mem_of_getLast?_eq _ _ hz
        exact Or.inr ((List.pairwise_cons.mp hp).1 zE hzmem)
      · exact ih (List.pairwise_cons.mp hp).2 hz he2

theorem filter_fold_eq_single (fold : Nat → Nat) :
    ∀ (l : List key_list_item) (e : key_list_item),
      List.Pairwise (fun a b => foldKey fold a.key_word < foldKey fold b.key_word) l →
      e ∈ l →
      l.filter (fun x => foldKey fold x.key_word == foldKey fold e.key_word) = [e] := by
  intro l
  induction l with
  | nil => intro e _ he; simp at he
  | cons x t ih =>
    intro e hp he
    obtain ⟨hx, hpt⟩ := List.pairwise_cons.mp hp
    rcases List.mem_cons.mp he with rfl | he2
    · have hnone : t.filter (fun y => foldKey fold y.key_word == foldKey fold e.key_word)
          = [] := by
        refine List.filter_eq_nil_iff.mpr fun y hy => ?_
        have hlt := hx y hy
        simp only [beq_iff_eq]
        exact fun hcontra => absurd hcontra.symm (ne_of_lt hlt)
      rw [List.filter_cons_of_pos (by simp), hnone]
    · have hlt := hx e he2
      have hne : (foldKey fold x.key_word == foldKey fold e.key_word) = false := by
        simp only [beq_eq_false_iff_ne]
        exact ne_of_lt hlt
      rw [List.filter_cons_of_neg (by simp [hne]), ih e hpt he2]

theorem findEntry_of_find?_some (fold : Nat → Nat) (blocks : List key_block_item)
    (word : List Nat) (b : key_block_item)
    (h : blocks.find? (findEntryPred fold word) = some b) :
    findEntry fold blocks word = blockMatches fold word b := by
  simp [findEntry, h]

theorem findEntry_of_find?_cons_neg (fold : Nat → Nat) (b : key_block_item)
    (rest : List key_block_item) (word : List Nat)
    (h : findEntryPred fold word b = false) :
    findEntry fold (b :: rest) word = findEntry fold rest word := by
  have hne : ¬ (findEntryPred fold word b = true) := by simp [h]
  simp only [findEntry, List.find?_cons_of_neg _ hne]

theorem findEntry_eq (fold : Nat → Nat) :
    ∀ (blocks : List key_block_item) (e : key_list_item),
      List.Pairwise (fun a b => foldKey fold a.key_word < foldKey fold b.key_word)
        ((blocks.map key_block_item.entries).flatten) →
      (∀ b ∈ blocks, ∃ hE zE, b.entries.head? = some hE ∧ b.entries.getLast? = some zE ∧
        b.first_key = hE.key_word ∧ b.last_key = zE.key_word) →
      e ∈ (blocks.map key_block_item.entries).flatten →
      findEntry fold blocks e.key_word = [e] := by
  intro blocks
  induction blocks with
  | nil => intro e _ _ he; simp at he
  | cons b rest ih =>
    intro e hp hb he
    have hflat : ((b :: rest).map key_block_item.entries).flatten
        = b.entries ++ ((rest.map key_block_item.entries).flatten) := by
      simp
    rw [hflat] at hp he
    obtain ⟨hp1, hp2, hcross⟩ := List.pairwise_append.mp hp
    obtain ⟨hE, zE, hh, hz, hf, hl⟩ := hb b (List.mem_cons_self b rest)
    rcases List.mem_append.mp he with heb | herest
    · have hle : foldKey fold e.key_word ≤ foldKey fold b.last_key := by
        rw [hl]
        rcases pairwise_rel_of_getLast hp1 hz heb with rfl | hlt
        · exact le_refl _
        · exact le_of_lt hlt
      have hfind : (b :: rest).find? (findEntryPred fold e.key_word) = some b :=
        List.find?_cons_of_pos _ (by simpa [findEntryPred] using hle)
      have hge : foldKey fold b.first_key ≤ foldKey fold e.key_word := by
        rw [hf]
        rcases pairwise_rel_of_head hp1 hh heb with rfl | hlt
        · exact le_refl _
        · exact le_of_lt hlt
      rw [findEntry_of_find?_some fold _ _ b hfind]
      unfold blockMatches
      rw [if_pos hge]
      exact filter_fold_eq_single fold b.entries e hp1 heb
    · have hzmem : zE ∈ b.entries := mem_of_getLast?_eq _ _ hz
      have hlt : foldKey fold b.last_key < foldKey fold e.key_word := by
        rw [hl]; exact hcross zE hzmem e herest
      have hpredf : findEntryPred fold e.key_word b = false := by
        simp [findEntryPred, not_le.mpr hlt]
      rw [findEntry_of_find?_cons_neg fold b rest e.key_word hpredf]
      exact ih e hp2 (fun x hx => hb x (List.mem_cons_of_mem b hx)) herest

theorem foldr_min_gt (off : Nat) :
    ∀ (l : List Nat) (init : Nat), (∀ x ∈ l, off < x) → off < init →
      off < l.foldr min init := by
  intro l
  induction l with
  | nil => intro init _ hi; simpa using hi
  | cons x t ih =>
    intro init hl hi
    simp only [List.foldr_cons]
    exact lt_min (hl x (List.mem_cons_self x t))
      (ih init (fun y hy => hl y (List.mem_cons_of_mem x hy)) hi)

theorem nextOffset_gt (m : MdictModel) (off : Nat) (h : off < m.stream.length) :
    off < nextOffset m off := by
  unfold nextOffset
  apply foldr_min_gt
  · intro x hx
    have hx2 := (List.mem_filter.mp hx).2
    simpa using hx2
  · exact h

theorem parse_definition_eq_slice (m : MdictModel) (off : Nat)
    (hsum : m.record_sizes.sum = m.stream.length)
    (hoff : off < m.stream.length)
    (hspan : nextOffset m off ≤
      recPrefix m.record_sizes (Mdict.reduce_record_block_offset m.record_sizes off) +
        m.record_sizes.getD (Mdict.reduce_record_block_offset m.record_sizes off) 0) :
    Mdict.parse_definition m off =
      (m.stream.drop off).take (nextOffset m off - off) := by
  have hin : off < m.record_sizes.sum := by rw [hsum]; exact hoff
  obtain ⟨hr1, hr2, hr3, _, _⟩ := reduce_record_block_offset_bracketing m.record_sizes off hin
  have hnext := nextOffset_gt m off hoff
  show ((((m.stream.drop (recPrefix m.record_sizes
      (Mdict.reduce_record_block_offset m.record_sizes off))).take
        (m.record_sizes.getD (Mdict.reduce_record_block_offset m.record_sizes off) 0)).drop
          (off - recPrefix m.record_sizes
            (Mdict.reduce_record_block_offset m.record_sizes off))).take
      (nextOffset m off - recPrefix m.record_sizes
          (Mdict.reduce_record_block_offset m.record_sizes off) -
        (off - recPrefix m.record_sizes
          (Mdict.reduce_record_block_offset m.record_sizes off))))
    = (m.stream.drop off).take (nextOffset m off - off)
  set r := Mdict.reduce_record_block_offset m.record_sizes off with hrdef
  set p := recPrefix m.record_sizes r with hpdef
  set sz := m.record_sizes.getD r 0 with hszdef
  rw [List.drop_take, List.drop_drop]
  have e2 : p + (off - p) = off := by omega
  rw [e2, List.take_take]
  congr 1
  omega

theorem lookup_eq_found_slice (m : MdictModel) (fold : Nat → Nat) (e : key_list_item)
    (Hsorted : List.Pairwise (fun a b => foldKey fold a.key_word < foldKey fold b.key_word)
      (Mdict.keyList m))
    (Hbounds : ∀ b ∈ m.blocks, ∃ hE zE, b.entries.head? = some hE ∧
      b.entries.getLast? = some zE ∧ b.first_key = hE.key_word ∧ b.last_key = zE.key_word)
    (Hsum : m.record_sizes.sum = m.stream.length)
    (Hoff : ∀ a ∈ Mdict.keyList m, a.record_start < m.stream.length)
    (Hspan : ∀ a ∈ Mdict.keyList m, nextOffset m a.record_start ≤
      recPrefix m.record_sizes (Mdict.reduce_record_block_offset m.record_sizes a.record_start) +
        m.record_sizes.getD (Mdict.reduce_record_block_offset m.record_sizes a.record_start) 0)
    (He : e ∈ Mdict.keyList m) :
    Mdict.lookup m fold e.key_word =
      .found ((m.stream.drop e.record_start).take
        (nextOffset m e.record_start - e.record_start)) := by
  have hfe := findEntry_eq fold m.blocks e Hsorted Hbounds He
  have hparse := parse_definition_eq_slice m e.record_start Hsum (Hoff e He) (Hspan e He)
  have hlk : Mdict.lookup m fold e.key_word =
      .found (Mdict.parse_definition m e.record_start) := by
    simp [Mdict.lookup, hfe, List.intercalate]
  rw [hlk, hparse]

/-- C1: for every (record_offset, key_text) pair enumerated by keyList()
on an initialized handle, lookup(key_text) does not return NotFound and
returns the record body whose start position in the decompressed record
stream corresponds to that record_offset.  The hypotheses are the
format's documented invariants: folded keys strictly sorted across the
dictionary, first_key/last_key of each info entry equal to the first and
last decoded key of its block, record offsets inside the stream, record
blocks tiling the stream, and no record crossing a block boundary. -/
theorem lookup_keyList_correct (m : MdictModel) (fold : Nat → Nat) (e : key_list_item)
    (Hsorted : List.Pairwise (fun a b => foldKey fold a.key_word < foldKey fold b.key_word)
      (Mdict.keyList m))
    (Hbounds : ∀ b ∈ m.blocks, ∃ hE zE, b.entries.head? = some hE ∧
      b.entries.getLast? = some zE ∧ b.first_key = hE.key_word ∧ b.last_key = zE.key_word)
    (Hsum : m.record_sizes.sum = m.stream.length)
    (Hoff : ∀ a ∈ Mdict.keyList m, a.record_start < m.stream.length)
    (Hspan : ∀ a ∈ Mdict.keyList m, nextOffset m a.record_start ≤
      recPrefix m.record_sizes (Mdict.reduce_record_block_offset m.record_sizes a.record_start) +
        m.record_sizes.getD (Mdict.reduce_record_block_offset m.record_sizes a.record_start) 0)
    (He : e ∈ Mdict.keyList m) :
    Mdict.lookup m fold e.key_word ≠ .notFound ∧
    Mdict.lookup m fold e.key_word =
      .found ((m.stream.drop e.record_start).take
        (nextOffset m e.record_start - e.record_start)) := by
  have h := lookup_eq_found_slice m fold e Hsorted Hbounds Hsum Hoff Hspan He
  rw [h]
  exact ⟨by simp, rfl⟩

/-- mdictExample is a tiny concrete dictionary used to witness the
facade theorems: one key block with keys "a" and "b" at record offsets
0 and 5, and one record block of 12 decompressed bytes. -/
def mdictExample : MdictModel :=
  { blocks := [⟨[97], [98], [⟨0, [97]⟩, ⟨5, [98]⟩]⟩]
    record_sizes := [12]
    stream := [1, 2, 3, 4, 5, 6, 7, 8, 9, 10, 11, 12] }

/-- C1 witness: in the concrete dictionary, the keyList entry (0, "a")
is found by lookup and yields the record stream slice that starts at
offset 0 and ends at the next offset 5. -/
theorem lookup_keyList_correct_witness :
    Mdict.lookup mdictExample (fun b => b) [97] ≠ .notFound ∧
    Mdict.lookup mdictExample (fun b => b) [97] = .found [1, 2, 3, 4, 5] := by
  have h := lookup_keyList_correct mdictExample (fun b => b) ⟨0, [97]⟩
    (by decide)
    (by intro b hb
        simp only [mdictExample, List.mem_singleton] at hb
        subst hb
        exact ⟨⟨0, [97]⟩, ⟨5, [98]⟩, rfl, rfl, rfl, rfl⟩)
    (by decide) (by decide) (by decide) (by decide)
  refine ⟨h.1, ?_⟩
  rw [h.2]
  decide

/-- b64char maps a 6-bit value to its RFC 4648 base64 alphabet byte. -/
def b64char (n : Nat) : Nat :=
  if n < 26 then 65 + n
  else if n < 52 then 97 + (n - 26)
  else if n < 62 then 48 + (n - 52)
  else if n = 62 then 43
  else 47

/-- b64val is the inverse base64 alphabet map, 0 on non-alphabet
bytes. -/
def b64val (c : Nat) : Nat :=
  if 65 ≤ c ∧ c ≤ 90 then c - 65
  else if 97 ≤ c ∧ c ≤ 122 then c - 97 + 26
  else if 48 ≤ c ∧ c ≤ 57 then c - 48 + 52
  else if c = 43 then 62
  else if c = 47 then 63
  else 0

/-- b64encode encodes a byte list as RFC 4648 base64 without line
breaks, with byte 61 as the padding character. -/
def b64encode : List Nat → List Nat
  | [] => []
  | [a] => [b64char (a / 4), b64char (a % 4 * 16), 61, 61]
  | [a, b] => [b64char (a / 4), b64char (a % 4 * 16 + b / 16), b64char (b % 16 * 4), 61]
  | a :: b :: c :: rest =>
      b64char (a / 4) :: b64char (a % 4 * 16 + b / 16) ::
        b64char (b % 16 * 4 + c / 64) :: b64char (c % 64) :: b64encode rest

/-- b64decode decodes RFC 4648 base64 text back to the byte list,
honouring the padding character. -/
def b64decode : List Nat → List Nat
  | c0 :: c1 :: c2 :: c3 :: rest =>
      if c2 = 61 then [b64val c0 * 4 + b64val c1 / 16]
      else if c3 = 61 then
        [b64val c0 * 4 + b64val c1 / 16, b64val c1 % 16 * 16 + b64val c2 / 4]
      else
        (b64val c0 * 4 + b64val c1 / 16) ::
          (b64val c1 % 16 * 16 + b64val c2 / 4) ::
            (b64val c2 % 4 * 64 + b64val c3) :: b64decode rest
  | _ => []

theorem b64val_b64char : ∀ n < 64, b64val (b64char n) = n := by decide

theorem b64char_ne_61 (n : Nat) : b64char n ≠ 61 := by
  unfold b64char
  split <;> [omega; split <;> [omega; split <;> [omega; split <;> omega]]]

theorem b64_roundtrip : ∀ (l : List Nat), (∀ x ∈ l, x < 256) →
    b64decode (b64encode l) = l
  | [], _ => rfl
  | [a], h => by
      have ha : a < 256 := h a (by simp)
      simp only [b64encode, b64decode, if_pos rfl]
      rw [b64val_b64char (a / 4) (by omega), b64val_b64char (a % 4 * 16) (by omega)]
      have e : a / 4 * 4 + a % 4 * 16 / 16 = a := by omega
      rw [e]
      simp
  | [a, b], h => by
      have ha : a < 256 := h a (by simp)
      have hb : b < 256 := h b (by simp)
      simp only [b64encode, b64decode, if_neg (b64char_ne_61 (b % 16 * 4)), if_pos rfl]
      rw [b64val_b64char (a / 4) (by omega),
        b64val_b64char (a % 4 * 16 + b / 16) (by omega),
        b64val_b64char (b % 16 * 4) (by omega)]
      have e1 : a / 4 * 4 + (a % 4 * 16 + b / 16) / 16 = a := by omega
      have e2 : (a % 4 * 16 + b / 16) % 16 * 16 + b % 16 * 4 / 4 = b := by omega
      rw [e1, e2]
      simp
  | a :: b :: c :: d :: rest, h => by
      have ha : a < 256 := h a (by simp)
      have hb : b < 256 := h b (by simp)
      have hc : c < 256 := h c (by simp)
      have ih := b64_roundtrip (d :: rest) (fun x hx => h x
        (List.mem_cons_of_mem a (List.mem_cons_of_mem b (List.mem_cons_of_mem c hx))))
      simp only [b64encode, b64decode, if_neg (b64char_ne_61 (b % 16 * 4 + c / 64)),
        if_neg (b64char_ne_61 (c % 64))]
      rw [b64val_b64char (a / 4) (by omega),
        b64val_b64char (a % 4 * 16 + b / 16) (by omega),
        b64val_b64char (b % 16 * 4 + c / 64) (by omega),
        b64val_b64char (c % 64) (by omega)]
      have e1 : a / 4 * 4 + (a % 4 * 16 + b / 16) / 16 = a := by omega
      have e2 : (a % 4 * 16 + b / 16) % 16 * 16 + (b % 16 * 4 + c / 64) / 4 = b := by omega
      have e3 : (b % 16 * 4 + c / 64) % 4 * 64 + c % 64 = c := by omega
      rw [e1, e2, e3, ih]
  | [a, b, c], h => by
      have ha : a < 256 := h a (by simp)
      have hb : b < 256 := h b (by simp)
      have hc : c < 256 := h c (by simp)
      simp only [b64encode, b64decode, if_neg (b64char_ne_61 (b % 16 * 4 + c / 64)),
        if_neg (b64char_ne_61 (c % 64))]
      rw [b64val_b64char (a / 4) (by omega),
        b64val_b64char (a % 4 * 16 + b / 16) (by omega),
        b64val_b64char (b % 16 * 4 + c / 64) (by omega),
        b64val_b64char (c % 64) (by omega)]
      have e1 : a / 4 * 4 + (a % 4 * 16 + b / 16) / 16 = a := by omega
      have e2 : (a % 4 * 16 + b / 16) % 16 * 16 + (b % 16 * 4 + c / 64) / 4 = b := by omega
      have e3 : (b % 16 * 4 + c / 64) % 4 * 64 + c % 64 = c := by omega
      rw [e1, e2, e3]

/-- hexChar maps a 4-bit value to its lowercase hex digit byte. -/
def hexChar (n : Nat) : Nat :=
  if n < 10 then 48 + n else 87 + n

/-- hexEncode writes each byte as two lowercase hex digits
(spec §4.11). -/
def hexEncode : List Nat → List Nat
  | [] => []
  | a :: rest => hexChar (a / 16) :: hexChar (a % 16) :: hexEncode rest

/-- mdict_encoding_t mirrors the result-encoding selector of the locate
API (mdict.h lines 274-281): RFC 4648 base64 or lowercase hex. -/
inductive mdict_encoding_t where
  | base64
  | hex
deriving Repr, DecidableEq

/-- Modelled from the spec: the body of `Mdict::locate` is absent
(mdict.h lines 274-281 declare it); spec §4.11: run the lookup path on
the MDD with byte-identity key comparison and encode the raw payload
per the requested encoding. -/
def Mdict.locate (m : MdictModel) (resource_name : List Nat)
    (encoding : mdict_encoding_t) : Option (List Nat) :=
  match Mdict.lookup m (fun b => b) resource_name with
  | .found payload =>
      some (match encoding with
        | .base64 => b64encode payload
        | .hex => hexEncode payload)
  | .notFound => none

/-- C5: for every resource stored in an MDD file, base64-decoding the
string returned by locate(name, Base64) yields exactly the resource's
raw payload bytes; locate followed by decode is the identity on
payloads.  Hypotheses are the format invariants of the lookup path with
the byte-identity fold of MDD resource names, plus the stream holding
bytes. -/
theorem locate_base64_roundtrip (m : MdictModel) (e : key_list_item)
    (Hsorted : List.Pairwise (fun a b => foldKey (fun x => x) a.key_word <
      foldKey (fun x => x) b.key_word) (Mdict.keyList m))
    (Hbounds : ∀ b ∈ m.blocks, ∃ hE zE, b.entries.head? = some hE ∧
      b.entries.getLast? = some zE ∧ b.first_key = hE.key_word ∧ b.last_key = zE.key_word)
    (Hsum : m.record_sizes.sum = m.stream.length)
    (Hoff : ∀ a ∈ Mdict.keyList m, a.record_start < m.stream.length)
    (Hspan : ∀ a ∈ Mdict.keyList m, nextOffset m a.record_start ≤
      recPrefix m.record_sizes (Mdict.reduce_record_block_offset m.record_sizes a.record_start) +
        m.record_sizes.getD (Mdict.reduce_record_block_offset m.record_sizes a.record_start) 0)
    (Hbytes : ∀ x ∈ m.stream, x < 256)
    (He : e ∈ Mdict.keyList m) :
    (Mdict.locate m e.key_word .base64).map b64decode =
      some ((m.stream.drop e.record_start).take
        (nextOffset m e.record_start - e.record_start)) := by
  have h := lookup_eq_found_slice m (fun x => x) e Hsorted Hbounds Hsum Hoff Hspan He
  have hpb : ∀ x ∈ (m.stream.drop e.record_start).take
      (nextOffset m e.record_start - e.record_start), x < 256 := fun x hx =>
    Hbytes x (List.mem_of_mem_drop (List.mem_of_mem_take hx))
  simp [Mdict.locate, h, b64_roundtrip _ hpb]

/-- C5 witness: locating the resource named "a" in the concrete
dictionary as base64 and then decoding returns the raw 5-byte
payload. -/
theorem locate_base64_roundtrip_witness :
    (Mdict.locate mdictExample [97] .base64).map b64decode = some [1, 2, 3, 4, 5] := by
  have h := locate_base64_roundtrip mdictExample ⟨0, [97]⟩
    (by decide)
    (by intro b hb
        simp only [mdictExample, List.mem_singleton] at hb
        subst hb
        exact ⟨⟨0, [97]⟩, ⟨5, [98]⟩, rfl, rfl, rfl, rfl⟩)
    (by decide) (by decide) (by decide) (by decide) (by decide)
  rw [h]
  decide

/-- suggestMatches lists the keys of one decoded block that start with
the prefix, in block order (spec §4.11). -/
def suggestMatches (word : List Nat) (b : key_block_item) : List (List Nat) :=
  (b.entries.map key_list_item.key_word).filter (fun k => word.isPrefixOf k)

/-- suggestGo streams blocks forward from the located block, emitting
each block's prefix matches and stopping before the first following
block whose first_key no longer shares the prefix (spec §4.11). -/
def suggestGo (word : List Nat) : List key_block_item → List (List Nat)
  | [] => []
  | [b] => suggestMatches word b
  | b :: b2 :: rest =>
      suggestMatches word b ++
        (if word.isPrefixOf b2.first_key then suggestGo word (b2 :: rest) else [])

/-- Modelled from the spec: the body of `Mdict::suggest` is absent
(mdict.h lines 283-289 declare it); spec §4.11: locate the first block
whose last_key is at least the prefix, then stream blocks forward
emitting each key_text that starts with the prefix. -/
def Mdict.suggest (m : MdictModel) (word : List Nat) : List (List Nat) :=
  suggestGo word (m.blocks.dropWhile (fun b => decide (b.last_key < word)))

theorem flatten_sublist_flatten {α : Type} {l1 l2 : List (List α)}
    (h : List.Sublist l1 l2) : List.Sublist l1.flatten l2.flatten := by
  induction h with
  | slnil => exact List.Sublist.refl _
  | cons x h ih => simpa [List.flatten_cons] using List.sublist_append_of_sublist_right ih
  | cons₂ x h ih => simpa [List.flatten_cons] using List.Sublist.append_left ih x

theorem suggestGo_mem_starts (word : List Nat) :
    ∀ (bs : List key_block_item) (s : List Nat), s ∈ suggestGo word bs →
      word.isPrefixOf s = true := by
  intro bs
  induction bs with
  | nil => intro s hs; simp [suggestGo] at hs
  | cons b rest ih =>
    intro s hs
    cases rest with
    | nil =>
      simp only [suggestGo, suggestMatches] at hs
      exact (List.mem_filter.mp hs).2
    | cons b2 rest2 =>
      simp only [suggestGo, suggestMatches] at hs
      rcases List.mem_append.mp hs with h1 | h2
      · exact (List.mem_filter.mp h1).2
      · by_cases hpf : word.isPrefixOf b2.first_key
        · rw [if_pos hpf] at h2
          exact ih s h2
        · rw [if_neg hpf] at h2
          simp at h2

theorem suggestGo_sublist (word : List Nat) :
    ∀ (bs : List key_block_item),
      List.Sublist (suggestGo word bs)
        ((bs.map (fun b => b.entries.map key_list_item.key_word)).flatten) := by
  intro bs
  induction bs with
  | nil => simp [suggestGo]
  | cons b rest ih =>
    cases rest with
    | nil =>
      simp only [suggestGo, suggestMatches, List.map_cons, List.map_nil,
        List.flatten_cons, List.flatten_nil, List.append_nil]
      exact List.filter_sublist _
    | cons b2 rest2 =>
      simp only [suggestGo, suggestMatches, List.map_cons, List.flatten_cons]
      apply List.Sublist.append
      · exact List.filter_sublist _
      · by_cases hpf : word.isPrefixOf b2.first_key
        · rw [if_pos hpf]
          simpa [List.map_cons, List.flatten_cons] using ih
        · rw [if_neg hpf]
          exact List.nil_sublist _

/-- C6: every string returned by suggest(p) starts with p, and the
returned list is in the dictionary's native key order: it is a sublist
of the keyList key sequence, hence sorted by the native lexicographic
order whenever that sequence is. -/
theorem suggest_spec (m : MdictModel) (word : List Nat) :
    (∀ s ∈ Mdict.suggest m word, word.isPrefixOf s = true) ∧
    List.Sublist (Mdict.suggest m word) ((Mdict.keyList m).map key_list_item.key_word) ∧
    (List.Pairwise (fun a b : List Nat => a ≤ b)
        ((Mdict.keyList m).map key_list_item.key_word) →
      List.Pairwise (fun a b : List Nat => a ≤ b) (Mdict.suggest m word)) := by
  have h1 := suggestGo_sublist word (m.blocks.dropWhile (fun b => decide (b.last_key < word)))
  have h2 : List.Sublist
      ((m.blocks.dropWhile (fun b => decide (b.last_key < word))).map
        (fun b => b.entries.map key_list_item.key_word))
      (m.blocks.map (fun b => b.entries.map key_list_item.key_word)) :=
    (List.dropWhile_sublist _).map _
  have h3 := flatten_sublist_flatten h2
  have h4 : (m.blocks.map (fun b => b.entries.map key_list_item.key_word)).flatten
      = (Mdict.keyList m).map key_list_item.key_word := by
    simp only [Mdict.keyList, List.map_flatten, List.map_map]
    rfl
  have hsub : List.Sublist (Mdict.suggest m word)
      ((Mdict.keyList m).map key_list_item.key_word) := by
    rw [← h4]
    exact h1.trans h3
  exact ⟨fun s hs => suggestGo_mem_starts word _ s hs, hsub, fun hp => hp.sublist hsub⟩

/-- C6 witness: suggesting prefix "a" in the concrete dictionary returns
exactly ["a"], every element starts with the prefix, and the sortedness
transfer applies to the concretely sorted key sequence. -/
theorem suggest_spec_witness :
    (∀ s ∈ Mdict.suggest mdictExample [97], [97].isPrefixOf s = true) ∧
    Mdict.suggest mdictExample [97] = [[97]] ∧
    List.Pairwise (fun a b : List Nat => a ≤ b) (Mdict.suggest mdictExample [97]) := by
  have h := suggest_spec mdictExample [97]
  exact ⟨h.1, by decide, h.2.2 (by decide)⟩

/-- MdictState is the reader lifecycle state set of spec §4.12. -/
inductive MdictState where
  | Unopened
  | Opened
  | Initialized
  | Closed
deriving Repr, DecidableEq, Fintype

/-- MdictEvent names the lifecycle transitions: constructing the handle
over the file, init(), and close()/destruction. -/
inductive MdictEvent where
  | openFile
  | initDict
  | closeFile
deriving Repr, DecidableEq, Fintype

/-- Modelled from the spec: the lifecycle transition relation of a
reader handle (spec §4.12): the one-shot non-reversible chain
Unopened → Opened → Initialized → Closed; no other transition
exists. -/
def mdictStep : MdictState → MdictEvent → Option MdictState
  | .Unopened, .openFile => some .Opened
  | .Opened, .initDict => some .Initialized
  | .Initialized, .closeFile => some .Closed
  | _, _ => none

/-- MdictError carries the StateError kind of spec §7. -/
inductive MdictError where
  | StateError
deriving Repr, DecidableEq

/-- Modelled from the spec: lookup on a handle checks the lifecycle
state first and yields StateError unless the handle is Initialized
(spec §4.12). -/
def lookupOnHandle (s : MdictState) (m : MdictModel) (fold : Nat → Nat)
    (word : List Nat) : Except MdictError LookupResult :=
  if s = .Initialized then .ok (Mdict.lookup m fold word) else .error .StateError

/-- Modelled from the spec: suggest on a handle with the same state
check (spec §4.12). -/
def suggestOnHandle (s : MdictState) (m : MdictModel) (word : List Nat) :
    Except MdictError (List (List Nat)) :=
  if s = .Initialized then .ok (Mdict.suggest m word) else .error .StateError

/-- Modelled from the spec: locate on a handle with the same state
check (spec §4.12). -/
def locateOnHandle (s : MdictState) (m : MdictModel) (resource_name : List Nat)
    (encoding : mdict_encoding_t) : Except MdictError (Option (List Nat)) :=
  if s = .Initialized then .ok (Mdict.locate m resource_name encoding) else .error .StateError

/-- C8: the reader's lifecycle is the one-shot chain Unopened → Opened →
Initialized → Closed: calling lookup, suggest or locate on a handle
that is not Initialized yields StateError, the Closed state is terminal
(no transition leaves it), and every transition is one of the three
chain steps. -/
theorem mdict_state_machine :
    (∀ s, s ≠ MdictState.Initialized → ∀ m fold word encoding,
      lookupOnHandle s m fold word = .error .StateError ∧
      suggestOnHandle s m word = .error .StateError ∧
      locateOnHandle s m word encoding = .error .StateError) ∧
    (∀ e, mdictStep .Closed e = none) ∧
    (∀ s e s', mdictStep s e = some s' →
      (s = .Unopened ∧ e = .openFile ∧ s' = .Opened) ∨
      (s = .Opened ∧ e = .initDict ∧ s' = .Initialized) ∨
      (s = .Initialized ∧ e = .closeFile ∧ s' = .Closed)) := by
  refine ⟨?_, by decide, ?_⟩
  · intro s hs m fold word encoding
    refine ⟨?_, ?_, ?_⟩ <;>
      simp [lookupOnHandle, suggestOnHandle, locateOnHandle, hs]
  · intro s e s' h
    cases s <;> cases e <;>
      first
        | (simp only [mdictStep, Option.some_inj] at h
           subst h
           simp)
        | exact absurd h (by simp [mdictStep])

/-- C8 witness: the three facade operations on concrete non-Initialized
states return StateError, and no event moves the Closed state. -/
theorem mdict_state_machine_witness :
    lookupOnHandle .Closed mdictExample (fun b => b) [97] = .error .StateError ∧
    suggestOnHandle .Unopened mdictExample [97] = .error .StateError ∧
    locateOnHandle .Opened mdictExample [97] .base64 = .error .StateError ∧
    mdictStep .Closed .openFile = none := by
  have h := mdict_state_machine
  have h1 := h.1 .Closed (by decide) mdictExample (fun b => b) [97] .base64
  have h2 := h.1 .Unopened (by decide) mdictExample (fun b => b) [97] .base64
  have h3 := h.1 .Opened (by decide) mdictExample (fun b => b) [97] .base64
  exact ⟨h1.1, h2.2.1, h3.2.2, h.2.1 .openFile⟩
